import Mathlib

/-
  Verification development for the lsrv repository (bshakr/lsrv).

  The discovery and correlation pipeline of internal/detector/detector.go,
  together with the git helpers (internal/git) and platform helpers
  (internal/platform), is shallowly embedded here.  Go strings are modelled
  as lists of characters (the relevant data is ASCII, where Go byte order
  and Char order agree).  External effects (the lsof invocations, the
  filesystem, the git commands) are modelled as an explicit environment of
  total functions, with Option results for fallible calls; every function
  of the repository itself is translated as a pure Lean function over that
  environment.
-/

/-- Strings of the embedded program: Go strings viewed as character lists. -/
abbrev Str := List Char

/-- Membership of a character in Go regexp's Perl class matched by the
backslash-s escape, which is exactly tab, newline, form feed, carriage
return and space. -/
def isReSpace (c : Char) : Bool :=
  c = ' ' || c = '\t' || c = '\n' || c = '\x0c' || c = '\r'

/-- Decimal digit test, Go regexp's backslash-d class. -/
def isReDigit (c : Char) : Bool :=
  decide ('0' ≤ c) && decide (c ≤ '9')

/-- Go unicode.IsSpace: the Latin-1 white space characters plus the
Unicode space separators, by code point.  strings.Fields splits around
maximal runs of these. -/
def goIsSpace (c : Char) : Bool :=
  c = ' ' || (decide ('\t' ≤ c) && decide (c ≤ '\r'))
    || c = '\x85' || c = '\xa0'
    || c.toNat = 0x1680 || (decide (0x2000 ≤ c.toNat) && decide (c.toNat ≤ 0x200a))
    || c.toNat = 0x2028 || c.toNat = 0x2029 || c.toNat = 0x202f
    || c.toNat = 0x205f || c.toNat = 0x3000

/-- Helper of goFields: accumulates the current word (reversed) while
scanning; mirrors the splitting behaviour of strings.Fields. -/
def fieldsGo : Str → Str → List Str
  | [], acc => if acc = [] then [] else [acc.reverse]
  | c :: rest, acc =>
    if goIsSpace c then
      if acc = [] then fieldsGo rest [] else acc.reverse :: fieldsGo rest []
    else fieldsGo rest (c :: acc)

/-- strings.Fields: the maximal runs of non-space characters, in order. -/
def goFields (l : Str) : List Str := fieldsGo l []

/-- Helper of goSplit: accumulates the current piece (reversed). -/
def splitGo (sep : Char) : Str → Str → List Str
  | [], acc => [acc.reverse]
  | c :: rest, acc =>
    if c = sep then acc.reverse :: splitGo sep rest []
    else splitGo sep rest (c :: acc)

/-- strings.Split with a one-character separator; the result is never
empty, matching Go. -/
def goSplit (s : Str) (sep : Char) : List Str := splitGo sep s []

/-- strings.TrimSpace: drop leading and trailing white space. -/
def trimSpace (l : Str) : Str :=
  ((l.dropWhile goIsSpace).reverse.dropWhile goIsSpace).reverse

/-- strings.TrimSuffix: remove one trailing occurrence of the given
suffix, if present. -/
def trimSuffix (l suf : Str) : Str :=
  if suf.reverse.isPrefixOf l.reverse then (l.reverse.drop suf.length).reverse
  else l

/-- filepath.Base for slash-separated paths: last element of the path
after trailing slashes are removed; "." for the empty path, "/" when the
path is all slashes. -/
def baseName (p : Str) : Str :=
  if p = [] then ".".data
  else
    let q := (p.reverse.dropWhile (fun c => c = '/')).reverse
    if q = [] then "/".data
    else (q.reverse.takeWhile (fun c => ¬ c = '/')).reverse

/-- The suffix after the last slash of a string — the final path segment
of a slash-separated value; the whole string when it has no slash.  Used
to state the display-name claims declaratively. -/
def afterLastSlash : Str → Str
  | [] => []
  | c :: rest =>
    if '/' ∈ rest then afterLastSlash rest
    else if c = '/' then rest else c :: rest

/-- Numeric value of a digit string, most significant digit first. -/
def digitsToNat (ds : Str) : Nat :=
  ds.foldl (fun n c => n * 10 + (c.toNat - 48)) 0

/-- Digit-string part of strconv.Atoi: all characters must be decimal
digits, the string must be non-empty, and the value must fit in a 64-bit
int (Go int on the supported 64-bit platforms); otherwise an error. -/
def atoiDigits (ds : Str) (neg : Bool) : Option Int :=
  if ds = [] then none
  else if ds.all isReDigit then
    let n := digitsToNat ds
    if neg then
      if n ≤ 9223372036854775808 then some (-(n : Int)) else none
    else
      if n ≤ 9223372036854775807 then some ((n : Int)) else none
  else none

/-- strconv.Atoi: optional sign followed by decimal digits; errors are
modelled as none. -/
def goAtoi (s : Str) : Option Int :=
  match s with
  | [] => none
  | c :: rest =>
    if c = '+' then atoiDigits rest false
    else if c = '-' then atoiDigits rest true
    else atoiDigits (c :: rest) false

/-- Decimal rendering of a Go int, as produced by fmt's percent-d verb. -/
def intChars (i : Int) : Str :=
  if i < 0 then '-' :: Nat.toDigits 10 (-i).toNat else Nat.toDigits 10 i.toNat

/-- The literal tail of the listener pattern. -/
def listenLit : Str := "(LISTEN)".data

/-- One anchored attempt of the pre-compiled pattern
colon, digit group, spaces, literal "(LISTEN)" at the start of the given
suffix; returns the digit group.  Greedy matching of the digit and space
runs is exact here because neither can absorb the character class that
follows it. -/
def tryListen : Str → Option Str
  | [] => none
  | c :: rest =>
    if c = ':' then
      if rest.takeWhile isReDigit = [] then none
      else if (rest.dropWhile isReDigit).takeWhile isReSpace = [] then none
      else if listenLit.isPrefixOf ((rest.dropWhile isReDigit).dropWhile isReSpace) then
        some (rest.takeWhile isReDigit)
      else none
    else none

/-- regexp.FindStringSubmatch for the listener pattern: the digit group of
the leftmost match, scanning anchored attempts left to right. -/
def scanListen : Str → Option Str
  | [] => none
  | c :: rest =>
    match tryListen (c :: rest) with
    | some ds => some ds
    | none => scanListen rest

/-- Declarative reading of the listener pattern: the line contains a
colon, a non-empty digit run, a non-empty white-space run and the literal
"(LISTEN)", in that order. -/
def HasListen (l : Str) : Prop :=
  ∃ s1 d w s2, l = s1 ++ ':' :: (d ++ w ++ listenLit ++ s2) ∧
    d ≠ [] ∧ d.all isReDigit = true ∧ w ≠ [] ∧ w.all isReSpace = true

/-- Result of a strconv.Atoi attempt where the caller turns an error into
the sentinel port 0 (detector.go, extractPort). -/
def atoiOr0 (s : Str) : Int :=
  match goAtoi s with
  | none => 0
  | some p => p

/-- The field-based fallback of extractPort (detector.go lines 176-189):
take the ninth white-space-separated field, split it on colons, and parse
the part after the last colon; 0 on any failure. -/
def fallbackNinth (line : Str) : Int :=
  let fields := goFields line
  if 9 ≤ fields.length then
    let parts := goSplit (fields.getD 8 []) ':'
    match parts.getLast? with
    | some last => atoiOr0 last
    | none => 0
  else 0

/-- extractPort (detector.go lines 165-190): the pre-compiled regex first,
then the ninth-field fallback, 0 when both fail. -/
def extractPort (line : Str) : Int :=
  match scanListen line with
  | some ds => atoiOr0 ds
  | none => fallbackNinth line

/-- isDevPort (detector.go lines 192-206). -/
def isDevPort (port : Int) : Bool :=
  if port < 1024 then false
  else if port ≥ 3000 then true
  else if port = 2000 then true
  else false

/-- platform.ValidatePID as a predicate: the error cases are pid ≤ 0 and
pid > 2147483647. -/
def validPID (pid : Int) : Bool :=
  decide (0 < pid) && decide (pid ≤ 2147483647)

/-- processInfo (detector.go): initial process data before the working
directory lookup. -/
structure ProcessInfo where
  pid : Int
  command : Str
  port : Int
deriving DecidableEq, Repr

/-- types.Server: the final unit of output.  FindServers leaves PID at the
zero value. -/
structure Server where
  Repo : Str
  Branch : Str
  Process : Str
  Port : Int
  PID : Int
  CWD : Str
deriving DecidableEq, Repr

/-- gitInfo (detector.go): result of the parallel git queries. -/
structure GitInfo where
  repo : Str
  branch : Str
deriving DecidableEq, Repr

/-- The external world of one run: results of the operating-system and git
invocations the program makes.  Fallible calls return Option (none is the
error case).  The git command results are keyed by the cleaned directory
they are invoked in; batchCwd is keyed by the pid list joined into the
lsof argument. -/
structure Env where
  isMacOS : Bool
  lsofListen : Option (List Str)
  batchCwd : List Int → Option (List Str)
  singleCwd : Int → Option (List Str)
  lstatSymlink : Int → Bool
  readlink : Int → Option Str
  absPath : Str → Option Str
  statIsDir : Str → Bool
  gitDirExists : Str → Bool
  revParseOk : Str → Bool
  remoteUrl : Str → Option Str
  branchCmd : Str → Option Str

/-- platform.ValidateDir: reject the empty path, make it absolute, and
require an existing directory; returns the cleaned path.  statIsDir
models the os.Stat call together with the IsDir check. -/
def ValidateDir (env : Env) (dir : Str) : Option Str :=
  if dir = [] then none
  else
    match env.absPath dir with
    | none => none
    | some cleaned => if env.statIsDir cleaned then some cleaned else none

/-- git.IsRepo: a marker .git directory directly inside the cleaned path,
or a successful rev-parse query; false for any invalid path.
gitDirExists models the os.Stat of the joined .git path. -/
def IsRepo (env : Env) (dir : Str) : Bool :=
  match ValidateDir env dir with
  | none => false
  | some cleaned => env.gitDirExists cleaned || env.revParseOk cleaned

/-- git.GetRepoName: prefer the remote URL of origin when the query
succeeds with non-empty output; take the part after the last slash of the
trimmed output and strip a trailing ".git"; otherwise fall back to the
base name.  remoteUrl carries the raw command output. -/
def GetRepoName (env : Env) (dir : Str) : Str :=
  match ValidateDir env dir with
  | none => baseName dir
  | some cleaned =>
    match env.remoteUrl cleaned with
    | some output =>
      if output.length > 0 then
        let url := trimSpace output
        let parts := goSplit url '/'
        match parts.getLast? with
        | some name => trimSuffix name ".git".data
        | none => baseName cleaned
      else baseName cleaned
    | none => baseName cleaned

/-- The sentinel branch label of git.GetBranch. -/
def naLabel : Str := "N/A".data

/-- git.GetBranch: the trimmed output of the abbreviated-reference query,
or the sentinel label on any failure. -/
def GetBranch (env : Env) (dir : Str) : Str :=
  match ValidateDir env dir with
  | none => naLabel
  | some cleaned =>
    match env.branchCmd cleaned with
    | none => naLabel
    | some output => trimSpace output

/-- getGitInfoParallel: both git queries are launched for the directory
and joined; each is deterministic in the environment, so the pair is a
pure function of the directory. -/
def getGitInfo (env : Env) (cwd : Str) : GitInfo :=
  { repo := GetRepoName env cwd, branch := GetBranch env cwd }

/-- The per-directory repo cache built by batchCheckGitRepos: every
directory the correlation loop looks up was inserted before the loop, so
the cache read is the IsRepo result for that directory. -/
def gitRepoCacheF (env : Env) (dir : Str) : Bool := IsRepo env dir

/-- The per-directory info cache built by batchGetGitInfo: it holds an
entry exactly for the directories that passed the repo check. -/
def gitInfoCacheF (env : Env) (dir : Str) : Option GitInfo :=
  if IsRepo env dir then some (getGitInfo env dir) else none

/-- One update of a pid-to-directory mapping, Go map assignment. -/
def mapUpd (m : Int → Option Str) (k : Int) (v : Str) : Int → Option Str :=
  fun q => if q = k then some v else m q

/-- The marker-record parse of the combined lsof output (detector.go lines
274-292): a p-record sets the current pid, an n-record attaches the
cleaned path to the current pid and resets it. -/
def parseBatchCwd (env : Env) : List Str → Int → (Int → Option Str) → (Int → Option Str)
  | [], _, m => m
  | line :: rest, cur, m =>
    if "p".data.isPrefixOf line then
      match goAtoi (line.drop 1) with
      | some pid => parseBatchCwd env rest pid m
      | none => parseBatchCwd env rest cur m
    else if "n".data.isPrefixOf line && cur != 0 then
      match env.absPath (line.drop 1) with
      | some cleaned => parseBatchCwd env rest 0 (mapUpd m cur cleaned)
      | none => parseBatchCwd env rest 0 m
    else parseBatchCwd env rest cur m

/-- First n-record of a single-pid lsof output, cleaned
(getProcessCWD, macOS branch). -/
def firstNLine (env : Env) : List Str → Option Str
  | [] => none
  | line :: rest =>
    if "n".data.isPrefixOf line then env.absPath (line.drop 1)
    else firstNLine env rest

/-- getProcessCWD: single-pid working-directory resolution; pid bounds
check, then the platform mechanism; errors are none. -/
def getProcessCWD (env : Env) (pid : Int) : Option Str :=
  if !validPID pid then none
  else if env.isMacOS then
    match env.singleCwd pid with
    | none => none
    | some outLines => firstNLine env outLines
  else
    if env.lstatSymlink pid then
      match env.readlink pid with
      | none => none
      | some cwd => env.absPath cwd
    else none

/-- fallbackGetCWDs: one individual lookup per pid; only non-empty
successes are inserted. -/
def fbAux (env : Env) (m : Int → Option Str) : List Int → (Int → Option Str)
  | [] => m
  | pid :: rest =>
    match getProcessCWD env pid with
    | some c => if c ≠ [] then fbAux env (mapUpd m pid c) rest else fbAux env m rest
    | none => fbAux env m rest

/-- fallbackGetCWDs (detector.go lines 321-331). -/
def fallbackGetCWDs (env : Env) (pids : List Int) : Int → Option Str :=
  fbAux env (fun _ => none) pids

/-- The Linux branch of batchGetProcessCWDs: per-pid symlink read. -/
def linuxCwds (env : Env) : List Int → (Int → Option Str) → (Int → Option Str)
  | [], m => m
  | pid :: rest, m =>
    if env.lstatSymlink pid then
      match env.readlink pid with
      | some cwd =>
        match env.absPath cwd with
        | some cleaned => linuxCwds env rest (mapUpd m pid cleaned)
        | none => linuxCwds env rest m
      | none => linuxCwds env rest m
    else linuxCwds env rest m

/-- batchGetProcessCWDs (detector.go lines 250-319): empty pid list short
circuit; on macOS one combined lsof call parsed by markers, with the
per-pid fallback when the combined call fails; on Linux per-pid symlink
reads. -/
def batchGetProcessCWDs (env : Env) (pids : List Int) : Int → Option Str :=
  if pids = [] then fun _ => none
  else if env.isMacOS then
    match env.batchCwd pids with
    | none => fallbackGetCWDs env pids
    | some outLines => parseBatchCwd env outLines 0 (fun _ => none)
  else linuxCwds env pids (fun _ => none)

/-- The first-pass line parse of FindServers (detector.go lines 49-87):
skip the header, require nine fields, extract and classify the port,
parse and validate the pid. -/
def parseLine (line : Str) : Option ProcessInfo :=
  if "COMMAND".data.isPrefixOf line then none
  else
    let fields := goFields line
    if fields.length < 9 then none
    else
      let pidStr := fields.getD 1 []
      let command := fields.getD 0 []
      let port := extractPort line
      if port == 0 || !isDevPort port then none
      else
        match goAtoi pidStr with
        | none => none
        | some pid =>
          if validPID pid then some { pid := pid, command := command, port := port }
          else none

/-- The identity key of the deduplication map: the four fields joined
with a vertical bar, as produced by the Sprintf call in FindServers. -/
def serverKey (s : Server) : Str :=
  s.Repo ++ '|' :: s.Branch ++ '|' :: s.Process ++ '|' :: intChars s.Port

/-- One iteration of the correlation loop for one record (detector.go
lines 118-134 up to the key check): resolve the working directory, drop
on absence or emptiness, drop non-repositories, read the info cache. -/
def stepA (env : Env) (cwdf : Int → Option Str) (p : ProcessInfo) : Option Server :=
  match cwdf p.pid with
  | none => none
  | some cwd =>
    if cwd = [] then none
    else if !gitRepoCacheF env cwd then none
    else
      match gitInfoCacheF env cwd with
      | none => none
      | some info =>
        some { Repo := info.repo, Branch := info.branch, Process := p.command,
               Port := p.port, PID := 0, CWD := cwd }

/-- The correlation loop with its seen-key set (detector.go lines
114-149): emit a server for each surviving record whose key is new. -/
def corrAux (st : ProcessInfo → Option Server) : List Str → List ProcessInfo → List Server
  | _, [] => []
  | seen, p :: rest =>
    match st p with
    | none => corrAux st seen rest
    | some s =>
      if serverKey s ∈ seen then corrAux st seen rest
      else s :: corrAux st (serverKey s :: seen) rest

/-- The seen-key set after the correlation loop runs over a list. -/
def seenOut (st : ProcessInfo → Option Server) : List Str → List ProcessInfo → List Str
  | seen, [] => seen
  | seen, p :: rest =>
    match st p with
    | none => seenOut st seen rest
    | some s =>
      if serverKey s ∈ seen then seenOut st seen rest
      else seenOut st (serverKey s :: seen) rest

/-- The deterministic part of FindServers after a successful enumeration:
parse the lines, resolve the working directories in batch, and run the
correlation loop.  The unique-directory set and the two git caches are
built before the loop from deterministic per-directory queries, so the
cache reads of the loop are the gitRepoCacheF and gitInfoCacheF values. -/
def pipelineServers (env : Env) (lines : List Str) : List Server :=
  let procs := lines.filterMap parseLine
  let pids := procs.map (fun p => p.pid)
  corrAux (stepA env (batchGetProcessCWDs env pids)) [] procs

/-- Byte-lexicographic string comparison, the Go less-than on strings. -/
def strLt : Str → Str → Bool
  | [], [] => false
  | [], _ :: _ => true
  | _ :: _, [] => false
  | a :: as, b :: bs =>
    if a < b then true else if b < a then false else strLt as bs

/-- The comparator of the final sort.Slice call (detector.go lines
152-160): repo, then branch, then port. -/
def serverLess (a b : Server) : Bool :=
  if a.Repo ≠ b.Repo then strLt a.Repo b.Repo
  else if a.Branch ≠ b.Branch then strLt a.Branch b.Branch
  else decide (a.Port < b.Port)

/-- The contract of sort.Slice: the result is a permutation of the input
that is sorted for the comparator.  sort.Slice is documented not to be
stable, so nothing more is guaranteed about the order of ties. -/
def SortSliceSpec (l out : List Server) : Prop :=
  out.Perm l ∧ out.Pairwise (fun a b => serverLess b a = false)

/-- FindServers as a relation between the environment and the returned
value: the single fatal error is a failing enumeration command; otherwise
any sorted permutation of the correlation output may be returned. -/
def FindServersRel (env : Env) (r : Except Unit (List Server)) : Prop :=
  match env.lsofListen with
  | none => r = Except.error ()
  | some lines => ∃ out, SortSliceSpec (pipelineServers env lines) out ∧ r = Except.ok out

/-- Insertion into a list sorted by serverLess; witness that a sorted
permutation always exists. -/
def insertSorted (s : Server) : List Server → List Server
  | [] => [s]
  | t :: ts => if serverLess s t then s :: t :: ts else t :: insertSorted s ts

/-- A sorted permutation of a server list. -/
def sortServers : List Server → List Server
  | [] => []
  | s :: rest => insertSorted s (sortServers rest)

/-- Non-strict lexicographic comparison of the (repository, branch, port)
tuple, the declarative sort order of the specification. -/
def tupleLe (a b : Server) : Prop :=
  strLt a.Repo b.Repo = true ∨
    (a.Repo = b.Repo ∧
      (strLt a.Branch b.Branch = true ∨ (a.Branch = b.Branch ∧ a.Port ≤ b.Port)))

/-- Modelled from the spec: claim C7 reads the display-name rule as
falling back to the base name whenever the remote URL value is absent or
empty, and otherwise taking the final path segment of the value. -/
def claimRepoName (env : Env) (dir : Str) : Str :=
  match ValidateDir env dir with
  | none => baseName dir
  | some cleaned =>
    match env.remoteUrl cleaned with
    | none => baseName cleaned
    | some output =>
      let url := trimSpace output
      if url = [] then baseName cleaned
      else trimSuffix (afterLastSlash url) ".git".data

/-- The trailing digit run of a string. -/
def trailingDigits (f : Str) : Str := (f.reverse.takeWhile isReDigit).reverse

/-- Modelled from the spec: claim C8 reads the extraction fallback as the
numeric value of the trailing digit run of the ninth field, none when the
field has no trailing digits. -/
def claimFallbackPort (l : Str) : Option Int :=
  let t := trailingDigits ((goFields l).getD 8 [])
  if t = [] then none else some ((digitsToNat t : Nat) : Int)

/-- The enumerator output of envOne. -/
def linesOne : List Str :=
  ["COMMAND  PID USER   FD   TYPE DEVICE SIZE NODE NAME".data,
   "node 100 user 21u IPv4 0x0 0t0 TCP *:3001 (LISTEN)".data]

/-- The enumerator output of envDup. -/
def linesDup : List Str :=
  ["node 100 user 21u IPv4 0x0 0t0 TCP *:3000 (LISTEN)".data,
   "node 200 user 21u IPv4 0x0 0t0 TCP *:3000 (LISTEN)".data]

/-- The enumerator output of envTie. -/
def linesTie : List Str :=
  ["node 100 user 21u IPv4 0x0 0t0 TCP *:3000 (LISTEN)".data,
   "ruby 200 user 21u IPv4 0x0 0t0 TCP *:3000 (LISTEN)".data]

/-- The enumerator output of envNoBranch. -/
def linesNoBranch : List Str :=
  ["node 100 user 21u IPv4 0x0 0t0 TCP *:3000 (LISTEN)".data]

/-- A run with one listener line in a repository with a configured origin
remote; used to exercise the pipeline at a concrete input. -/
def envOne : Env :=
  { isMacOS := true
    lsofListen := some linesOne
    batchCwd := fun pids => if pids = [100] then some ["p100".data, "n/repo-a".data] else none
    singleCwd := fun _ => none
    lstatSymlink := fun _ => false
    readlink := fun _ => none
    absPath := fun s => if s = [] then none else some s
    statIsDir := fun _ => true
    gitDirExists := fun _ => true
    revParseOk := fun _ => true
    remoteUrl := fun _ => some "git@host:org/repo-a.git\n".data
    branchCmd := fun _ => some "main\n".data }

/-- The single entry the correlation loop produces for envOne. -/
def srvOne : Server :=
  { Repo := "repo-a".data, Branch := "main".data, Process := "node".data,
    Port := 3001, PID := 0, CWD := "/repo-a".data }

/-- A run with two listeners in two repositories whose names and branches
contain the vertical bar, so that two distinct four-field tuples build
the same joined identity key. -/
def envDup : Env :=
  { isMacOS := true
    lsofListen := some linesDup
    batchCwd := fun pids => if pids = [100, 200] then
        some ["p100".data, "n/a".data, "p200".data, "n/b".data] else none
    singleCwd := fun _ => none
    lstatSymlink := fun _ => false
    readlink := fun _ => none
    absPath := fun s => if s = [] then none else some s
    statIsDir := fun _ => true
    gitDirExists := fun _ => true
    revParseOk := fun _ => true
    remoteUrl := fun d => if d = "/a".data then some "a|b\n".data else some "a\n".data
    branchCmd := fun d => if d = "/a".data then some "c\n".data else some "b|c\n".data }

/-- The entry envDup emits for its first record. -/
def srvDupA : Server :=
  { Repo := "a|b".data, Branch := "c".data, Process := "node".data,
    Port := 3000, PID := 0, CWD := "/a".data }

/-- The entry the second envDup record would carry: a distinct tuple with
the same joined key. -/
def srvDupB : Server :=
  { Repo := "a".data, Branch := "b|c".data, Process := "node".data,
    Port := 3000, PID := 0, CWD := "/b".data }

/-- A run with two listeners that tie on repository, branch and port and
differ only in the process name. -/
def envTie : Env :=
  { isMacOS := true
    lsofListen := some linesTie
    batchCwd := fun pids => if pids = [100, 200] then
        some ["p100".data, "n/a".data, "p200".data, "n/b".data] else none
    singleCwd := fun _ => none
    lstatSymlink := fun _ => false
    readlink := fun _ => none
    absPath := fun s => if s = [] then none else some s
    statIsDir := fun _ => true
    gitDirExists := fun _ => true
    revParseOk := fun _ => true
    remoteUrl := fun _ => some "r\n".data
    branchCmd := fun _ => some "main\n".data }

/-- First entry of the envTie correlation output. -/
def srvTieA : Server :=
  { Repo := "r".data, Branch := "main".data, Process := "node".data,
    Port := 3000, PID := 0, CWD := "/a".data }

/-- Second entry of the envTie correlation output. -/
def srvTieB : Server :=
  { Repo := "r".data, Branch := "main".data, Process := "ruby".data,
    Port := 3000, PID := 0, CWD := "/b".data }

/-- A run whose branch query fails for the listener directory. -/
def envNoBranch : Env :=
  { isMacOS := true
    lsofListen := some linesNoBranch
    batchCwd := fun pids => if pids = [100] then some ["p100".data, "n/a".data] else none
    singleCwd := fun _ => none
    lstatSymlink := fun _ => false
    readlink := fun _ => none
    absPath := fun s => if s = [] then none else some s
    statIsDir := fun _ => true
    gitDirExists := fun _ => true
    revParseOk := fun _ => true
    remoteUrl := fun _ => some "r\n".data
    branchCmd := fun _ => none }

/-- A macOS run whose combined working-directory query fails, with one
pid resolvable individually and one not. -/
def envBatchFail : Env :=
  { isMacOS := true
    lsofListen := some []
    batchCwd := fun _ => none
    singleCwd := fun pid => if pid = 100 then some ["p100".data, "n/a".data] else none
    lstatSymlink := fun _ => false
    readlink := fun _ => none
    absPath := fun s => if s = [] then none else some s
    statIsDir := fun _ => true
    gitDirExists := fun _ => true
    revParseOk := fun _ => true
    remoteUrl := fun _ => none
    branchCmd := fun _ => none }

/-- A directory environment whose origin remote query succeeds with
white-space-only output: the configured value is present but empty. -/
def envBlankUrl : Env :=
  { isMacOS := true
    lsofListen := none
    batchCwd := fun _ => none
    singleCwd := fun _ => none
    lstatSymlink := fun _ => false
    readlink := fun _ => none
    absPath := fun s => if s = [] then none else some s
    statIsDir := fun _ => true
    gitDirExists := fun _ => true
    revParseOk := fun _ => true
    remoteUrl := fun _ => some "\n".data
    branchCmd := fun _ => none }

/-! Comparator facts. -/

theorem strLt_irrefl : ∀ a : Str, strLt a a = false
  | [] => rfl
  | c :: cs => by simp [strLt, strLt_irrefl cs]

theorem strLt_asymm : ∀ a b : Str, strLt a b = true → strLt b a = false := by
  intro a
  induction a with
  | nil =>
    intro b h
    cases b with
    | nil => simp [strLt] at h
    | cons d ds => simp [strLt]
  | cons c cs ih =>
    intro b h
    cases b with
    | nil => simp [strLt] at h
    | cons d ds =>
      simp only [strLt] at h ⊢
      rcases lt_trichotomy c d with h1 | h1 | h1
      · simp [h1, lt_asymm h1]
      · subst h1
        simp only [lt_irrefl, if_false] at h ⊢
        exact ih ds h
      · simp [h1, lt_asymm h1] at h

theorem strLt_trans : ∀ a b c : Str, strLt a b = true → strLt b c = true → strLt a c = true := by
  intro a
  induction a with
  | nil =>
    intro b c h1 h2
    cases b with
    | nil => simp [strLt] at h1
    | cons d ds =>
      cases c with
      | nil => simp [strLt] at h2
      | cons e es => simp [strLt]
  | cons x xs ih =>
    intro b c h1 h2
    cases b with
    | nil => simp [strLt] at h1
    | cons y ys =>
      cases c with
      | nil => simp [strLt] at h2
      | cons z zs =>
        simp only [strLt] at h1 h2 ⊢
        rcases lt_trichotomy x y with hxy | hxy | hxy
        · rcases lt_trichotomy y z with hyz | hyz | hyz
          · simp [lt_trans hxy hyz]
          · subst hyz; simp [hxy]
          · simp [hyz, lt_asymm hyz] at h2
        · subst hxy
          simp only [lt_irrefl, if_false] at h1
          rcases lt_trichotomy x z with hyz | hyz | hyz
          · simp [hyz]
          · subst hyz
            simp only [lt_irrefl, if_false] at h2 ⊢
            exact ih ys zs h1 h2
          · simp [hyz, lt_asymm hyz] at h2
        · simp [hxy, lt_asymm hxy] at h1

theorem strLt_conn : ∀ a b : Str, a ≠ b → strLt a b = true ∨ strLt b a = true := by
  intro a
  induction a with
  | nil =>
    intro b hne
    cases b with
    | nil => exact absurd rfl hne
    | cons d ds => left; rfl
  | cons c cs ih =>
    intro b hne
    cases b with
    | nil => right; rfl
    | cons d ds =>
      rcases lt_trichotomy c d with h1 | h1 | h1
      · left; simp [strLt, h1]
      · subst h1
        have hne' : cs ≠ ds := by intro h; exact hne (by rw [h])
        rcases ih ds hne' with h | h
        · left; simp [strLt, h]
        · right; simp [strLt, h]
      · right; simp [strLt, h1]

/-- The sort comparator read backwards is the non-strict lexicographic
tuple order: exactly the sortedness notion of the specification. -/
theorem not_serverLess_iff : ∀ a b : Server, (serverLess b a = false) ↔ tupleLe a b := by
  intro a b
  unfold serverLess tupleLe
  split_ifs with h1 h2
  · have hne : a.Repo ≠ b.Repo := fun h => h1 h.symm
    constructor
    · intro h
      rcases strLt_conn a.Repo b.Repo hne with hc | hc
      · exact Or.inl hc
      · rw [hc] at h; cases h
    · rintro (hc | ⟨hc, -⟩)
      · exact strLt_asymm _ _ hc
      · exact absurd hc hne
  · have hr : a.Repo = b.Repo := (not_not.mp h1).symm
    have hbne : a.Branch ≠ b.Branch := fun h => h2 h.symm
    constructor
    · intro h
      refine Or.inr ⟨hr, ?_⟩
      rcases strLt_conn a.Branch b.Branch hbne with hc | hc
      · exact Or.inl hc
      · rw [hc] at h; cases h
    · rintro (hc | ⟨-, hc | ⟨hc, -⟩⟩)
      · rw [hr, strLt_irrefl] at hc; cases hc
      · exact strLt_asymm _ _ hc
      · exact absurd hc hbne
  · have hr : a.Repo = b.Repo := (not_not.mp h1).symm
    have hb : a.Branch = b.Branch := (not_not.mp h2).symm
    constructor
    · intro h
      refine Or.inr ⟨hr, Or.inr ⟨hb, ?_⟩⟩
      exact not_lt.mp (of_decide_eq_false h)
    · rintro (hc | ⟨-, hc | ⟨-, hc⟩⟩)
      · rw [hr, strLt_irrefl] at hc; cases hc
      · rw [hb, strLt_irrefl] at hc; cases hc
      · exact decide_eq_false (not_lt.mpr hc)

theorem serverLess_asymm : ∀ a b : Server, serverLess a b = true → serverLess b a = false := by
  intro a b h
  unfold serverLess at h ⊢
  by_cases hr : a.Repo = b.Repo
  · simp only [hr, ne_eq, not_true_eq_false, if_false] at h
    have hr' : ¬ b.Repo = a.Repo → False := fun hh => hh hr.symm
    simp only [hr.symm, ne_eq, not_true_eq_false, if_false]
    by_cases hb : a.Branch = b.Branch
    · simp only [hb, ne_eq, not_true_eq_false, if_false] at h
      simp only [hb.symm, ne_eq, not_true_eq_false, if_false]
      simp only [decide_eq_true_eq] at h
      simp [Int.not_lt, le_of_lt h]
    · have hb2 : ¬ b.Branch = a.Branch := fun hh => hb hh.symm
      simp only [hb, ne_eq, not_false_eq_true, if_true] at h
      simp only [hb2, ne_eq, not_false_eq_true, if_true]
      exact strLt_asymm _ _ h
  · have hr2 : ¬ b.Repo = a.Repo := fun hh => hr hh.symm
    simp only [hr, ne_eq, not_false_eq_true, if_true] at h
    simp only [hr2, ne_eq, not_false_eq_true, if_true]
    exact strLt_asymm _ _ h

theorem serverLess_trans :
    ∀ a b c : Server, serverLess a b = true → serverLess b c = true → serverLess a c = true := by
  intro a b c h1 h2
  unfold serverLess at h1 h2 ⊢
  by_cases hab : a.Repo = b.Repo <;> by_cases hbc : b.Repo = c.Repo
  · have hac : a.Repo = c.Repo := hab.trans hbc
    simp only [hab, hbc, hac, ne_eq, not_true_eq_false, if_false] at h1 h2 ⊢
    by_cases hb1 : a.Branch = b.Branch <;> by_cases hb2 : b.Branch = c.Branch
    · have hb3 : a.Branch = c.Branch := hb1.trans hb2
      simp only [hb1, hb2, hb3, ne_eq, not_true_eq_false, if_false,
        decide_eq_true_eq] at h1 h2 ⊢
      omega
    · have hb3 : a.Branch ≠ c.Branch := by rw [hb1]; exact hb2
      simp only [hb1, hb2, hb3, ne_eq, not_true_eq_false, if_false,
        not_false_eq_true, if_true] at h1 h2 ⊢
      exact h2
    · have hb3 : a.Branch ≠ c.Branch := by rw [← hb2]; exact hb1
      simp only [hb1, hb2, hb3, ne_eq, not_true_eq_false, if_false,
        not_false_eq_true, if_true] at h1 h2 ⊢
      exact h1
    · simp only [hb1, hb2, ne_eq, not_false_eq_true, if_true] at h1 h2
      by_cases hb3 : a.Branch = c.Branch
      · exfalso
        rw [hb3] at h1
        rw [strLt_asymm _ _ h2] at h1
        exact absurd h1 (by simp)
      · simp only [hb3, ne_eq, not_false_eq_true, if_true]
        exact strLt_trans _ _ _ h1 h2
  · have hac : a.Repo ≠ c.Repo := by rw [hab]; exact hbc
    simp only [hab, hbc, hac, ne_eq, not_true_eq_false, if_false, not_false_eq_true,
      if_true] at h1 h2 ⊢
    exact h2
  · have hac : a.Repo ≠ c.Repo := by rw [← hbc]; exact hab
    simp only [hab, hbc, hac, ne_eq, not_true_eq_false, if_false, not_false_eq_true,
      if_true] at h1 h2 ⊢
    exact h1
  · simp only [hab, hbc, ne_eq, not_false_eq_true, if_true] at h1 h2
    by_cases hac : a.Repo = c.Repo
    · exfalso
      rw [hac] at h1
      rw [strLt_asymm _ _ h2] at h1
      exact absurd h1 (by simp)
    · simp only [hac, ne_eq, not_false_eq_true, if_true]
      exact strLt_trans _ _ _ h1 h2

/-! Sortedness infrastructure. -/

theorem insertSorted_perm : ∀ (s : Server) (l : List Server), (insertSorted s l).Perm (s :: l) := by
  intro s l
  induction l with
  | nil => simp [insertSorted]
  | cons t ts ih =>
    simp only [insertSorted]
    split
    · exact List.Perm.refl _
    · exact List.Perm.trans (List.Perm.cons t ih) (List.Perm.swap s t ts)

theorem insertSorted_pairwise :
    ∀ (s : Server) (l : List Server),
      l.Pairwise (fun a b => serverLess b a = false) →
      (insertSorted s l).Pairwise (fun a b => serverLess b a = false) := by
  intro s l
  induction l with
  | nil => intro _; simp [insertSorted]
  | cons t ts ih =>
    intro h
    rcases List.pairwise_cons.mp h with ⟨h1, h2⟩
    simp only [insertSorted]
    split
    · rename_i hst
      refine List.pairwise_cons.mpr ⟨?_, h⟩
      intro x hx
      rcases List.mem_cons.mp hx with rfl | hx
      · exact serverLess_asymm _ _ hst
      · by_contra hxs
        have hxs' : serverLess x s = true := by
          cases hv : serverLess x s
          · exact absurd hv hxs
          · rfl
        have := serverLess_trans _ _ _ hxs' hst
        rw [h1 x hx] at this
        cases this
    · rename_i hst
      refine List.pairwise_cons.mpr ⟨?_, ih h2⟩
      intro x hx
      rcases List.mem_cons.mp ((insertSorted_perm s ts).mem_iff.mp hx) with rfl | hx
      · cases hv : serverLess x t
        · rfl
        · exact absurd hv hst
      · exact h1 x hx

theorem sortServers_spec : ∀ l : List Server, SortSliceSpec l (sortServers l) := by
  intro l
  induction l with
  | nil => exact ⟨List.Perm.refl _, List.Pairwise.nil⟩
  | cons s rest ih =>
    refine ⟨?_, ?_⟩
    · exact List.Perm.trans (insertSorted_perm s (sortServers rest)) (List.Perm.cons s ih.1)
    · exact insertSorted_pairwise s (sortServers rest) ih.2

/-- Claim C3: the port classifier accepts a port exactly when it is at
least 3000 or equals 2000; ports below 1024 and the remaining ports of
the middle range are rejected. -/
theorem isDevPort_spec : ∀ p : Int,
    (isDevPort p = true ↔ (3000 ≤ p ∨ p = 2000)) ∧
    (p < 1024 → isDevPort p = false) ∧
    (1024 ≤ p → p < 3000 → p ≠ 2000 → isDevPort p = false) := by
  intro p
  unfold isDevPort
  refine ⟨?_, ?_, ?_⟩
  · split_ifs <;> simp_all
    omega
  · intro h
    split_ifs
    rfl
  · intro h1 h2 h3
    split_ifs <;> simp_all
    omega

/-- Claim C3 witness: the classifier evaluated at 8080, 2000, 500 and
2500 through the characterization theorem. -/
theorem isDevPort_spec_witness :
    isDevPort 8080 = true ∧ isDevPort 2000 = true ∧
    isDevPort 500 = false ∧ isDevPort 2500 = false :=
  ⟨(isDevPort_spec 8080).1.mpr (Or.inl (by norm_num)),
   (isDevPort_spec 2000).1.mpr (Or.inr rfl),
   (isDevPort_spec 500).2.1 (by norm_num),
   (isDevPort_spec 2500).2.2 (by norm_num) (by norm_num) (by decide)⟩

/-- FindServersRel unfolded on a successful enumeration. -/
theorem findServersRel_ok_iff :
    ∀ (env : Env) (lines : List Str) (r : Except Unit (List Server)),
      env.lsofListen = some lines →
      (FindServersRel env r ↔
        ∃ out, SortSliceSpec (pipelineServers env lines) out ∧ r = Except.ok out) := by
  intro env lines r hl
  unfold FindServersRel
  rw [hl]

/-- FindServersRel unfolded on a failing enumeration. -/
theorem findServersRel_err_iff :
    ∀ (env : Env) (r : Except Unit (List Server)),
      env.lsofListen = none →
      (FindServersRel env r ↔ r = Except.error ()) := by
  intro env r hl
  unfold FindServersRel
  rw [hl]

/-- Claim C2 (amended): for every run, any returned server list is a
permutation of the correlation output that is non-decreasing in the
(repository, branch, port) tuple, hence sorted ascending by repository,
then branch, then port for every permutation of the input records; the
relative order of entries tied on all three fields is not specified,
because the final sort.Slice call is documented not to be stable. -/
theorem findServers_sorted : ∀ (env : Env) (out : List Server),
    FindServersRel env (Except.ok out) →
    List.Pairwise tupleLe out ∧
    ∃ lines, env.lsofListen = some lines ∧ out.Perm (pipelineServers env lines) := by
  intro env out h
  cases hl : env.lsofListen with
  | none =>
    rw [findServersRel_err_iff env _ hl] at h
    cases h
  | some lines =>
    rw [findServersRel_ok_iff env lines _ hl] at h
    obtain ⟨o, ⟨hperm, hpair⟩, heq⟩ := h
    simp only [Except.ok.injEq] at heq
    subst heq
    exact ⟨hpair.imp (fun hab => (not_serverLess_iff _ _).mp hab), lines, rfl, hperm⟩

/-- Claim C2 witness: the concrete run envOne returns its single entry,
and the sortedness theorem applies to it. -/
theorem findServers_sorted_witness :
    List.Pairwise tupleLe [srvOne] ∧ [srvOne].Perm (pipelineServers envOne linesOne) := by
  have h := findServers_sorted envOne [srvOne]
    ((findServersRel_ok_iff envOne linesOne _ rfl).mpr
      ⟨[srvOne], ⟨by decide, by decide⟩, rfl⟩)
  obtain ⟨hp, lines, hl, hperm⟩ := h
  have : lines = linesOne := by
    have : some lines = some linesOne := hl ▸ rfl
    simpa using this
  subst this
  exact ⟨hp, hperm⟩

/-- Claim C2 counterexample: in the run envTie the correlation loop emits
the node entry before the ruby entry; both tie on repository, branch and
port, and the reversed order is also a legal FindServers result, so the
output order of ties is not the order the correlation loop produced. -/
theorem findServers_stable_cex :
    FindServersRel envTie (Except.ok [srvTieB, srvTieA]) ∧
    pipelineServers envTie linesTie = [srvTieA, srvTieB] ∧
    srvTieA.Repo = srvTieB.Repo ∧ srvTieA.Branch = srvTieB.Branch ∧
    srvTieA.Port = srvTieB.Port ∧ srvTieA ≠ srvTieB := by
  refine ⟨(findServersRel_ok_iff envTie linesTie _ rfl).mpr
    ⟨[srvTieB, srvTieA], ⟨by decide, by decide⟩, rfl⟩,
    by decide, by decide, by decide, by decide, by decide⟩

/-! Correlation-loop facts. -/

theorem corrAux_nil (st : ProcessInfo → Option Server) (seen : List Str) :
    corrAux st seen [] = [] := rfl

theorem corrAux_cons_none (st : ProcessInfo → Option Server) (seen : List Str)
    (q : ProcessInfo) (rest : List ProcessInfo) (h : st q = none) :
    corrAux st seen (q :: rest) = corrAux st seen rest := by
  simp [corrAux, h]

theorem corrAux_cons_seen (st : ProcessInfo → Option Server) (seen : List Str)
    (q : ProcessInfo) (rest : List ProcessInfo) (s : Server)
    (h : st q = some s) (hs : serverKey s ∈ seen) :
    corrAux st seen (q :: rest) = corrAux st seen rest := by
  simp [corrAux, h, hs]

theorem corrAux_cons_new (st : ProcessInfo → Option Server) (seen : List Str)
    (q : ProcessInfo) (rest : List ProcessInfo) (s : Server)
    (h : st q = some s) (hs : serverKey s ∉ seen) :
    corrAux st seen (q :: rest) = s :: corrAux st (serverKey s :: seen) rest := by
  simp [corrAux, h, hs]

theorem seenOut_nil (st : ProcessInfo → Option Server) (seen : List Str) :
    seenOut st seen [] = seen := rfl

theorem seenOut_cons_none (st : ProcessInfo → Option Server) (seen : List Str)
    (q : ProcessInfo) (rest : List ProcessInfo) (h : st q = none) :
    seenOut st seen (q :: rest) = seenOut st seen rest := by
  simp [seenOut, h]

theorem seenOut_cons_seen (st : ProcessInfo → Option Server) (seen : List Str)
    (q : ProcessInfo) (rest : List ProcessInfo) (s : Server)
    (h : st q = some s) (hs : serverKey s ∈ seen) :
    seenOut st seen (q :: rest) = seenOut st seen rest := by
  simp [seenOut, h, hs]

theorem seenOut_cons_new (st : ProcessInfo → Option Server) (seen : List Str)
    (q : ProcessInfo) (rest : List ProcessInfo) (s : Server)
    (h : st q = some s) (hs : serverKey s ∉ seen) :
    seenOut st seen (q :: rest) = seenOut st (serverKey s :: seen) rest := by
  simp [seenOut, h, hs]

theorem corrAux_drop (st : ProcessInfo → Option Server) :
    ∀ (pre : List ProcessInfo) (seen : List Str) (p : ProcessInfo) (post : List ProcessInfo),
      st p = none →
      corrAux st seen (pre ++ p :: post) = corrAux st seen (pre ++ post) := by
  intro pre
  induction pre with
  | nil =>
    intro seen p post hp
    simp only [List.nil_append]
    exact corrAux_cons_none st seen p post hp
  | cons q pre ih =>
    intro seen p post hp
    simp only [List.cons_append]
    cases hq : st q with
    | none =>
      rw [corrAux_cons_none st seen q _ hq, corrAux_cons_none st seen q _ hq]
      exact ih seen p post hp
    | some s =>
      by_cases hs : serverKey s ∈ seen
      · rw [corrAux_cons_seen st seen q _ s hq hs, corrAux_cons_seen st seen q _ s hq hs]
        exact ih seen p post hp
      · rw [corrAux_cons_new st seen q _ s hq hs, corrAux_cons_new st seen q _ s hq hs]
        rw [ih _ p post hp]

theorem corrAux_append (st : ProcessInfo → Option Server) :
    ∀ (pre : List ProcessInfo) (seen : List Str) (post : List ProcessInfo),
      corrAux st seen (pre ++ post) =
        corrAux st seen pre ++ corrAux st (seenOut st seen pre) post := by
  intro pre
  induction pre with
  | nil =>
    intro seen post
    simp only [List.nil_append, corrAux_nil, seenOut_nil]
  | cons q pre ih =>
    intro seen post
    simp only [List.cons_append]
    cases hq : st q with
    | none =>
      rw [corrAux_cons_none st seen q _ hq, corrAux_cons_none st seen q _ hq,
        seenOut_cons_none st seen q _ hq]
      exact ih seen post
    | some s =>
      by_cases hs : serverKey s ∈ seen
      · rw [corrAux_cons_seen st seen q _ s hq hs, corrAux_cons_seen st seen q _ s hq hs,
          seenOut_cons_seen st seen q _ s hq hs]
        exact ih seen post
      · rw [corrAux_cons_new st seen q _ s hq hs, corrAux_cons_new st seen q _ s hq hs,
          seenOut_cons_new st seen q _ s hq hs]
        rw [ih _ post]
        simp

theorem seenOut_mem (st : ProcessInfo → Option Server) :
    ∀ (pre : List ProcessInfo) (seen : List Str) (k : Str),
      k ∈ seenOut st seen pre ↔
        k ∈ seen ∨ k ∈ (corrAux st seen pre).map serverKey := by
  intro pre
  induction pre with
  | nil =>
    intro seen k
    simp [corrAux_nil, seenOut_nil]
  | cons q pre ih =>
    intro seen k
    cases hq : st q with
    | none =>
      rw [seenOut_cons_none st seen q _ hq, corrAux_cons_none st seen q _ hq]
      exact ih seen k
    | some s =>
      by_cases hs : serverKey s ∈ seen
      · rw [seenOut_cons_seen st seen q _ s hq hs, corrAux_cons_seen st seen q _ s hq hs]
        exact ih seen k
      · rw [seenOut_cons_new st seen q _ s hq hs, corrAux_cons_new st seen q _ s hq hs]
        rw [ih]
        simp only [List.mem_cons, List.map_cons]
        tauto

theorem corr_keys_nodup (st : ProcessInfo → Option Server) :
    ∀ (procs : List ProcessInfo) (seen : List Str),
      ((corrAux st seen procs).map serverKey).Nodup ∧
      ∀ k ∈ (corrAux st seen procs).map serverKey, k ∉ seen := by
  intro procs
  induction procs with
  | nil =>
    intro seen
    simp [corrAux_nil]
  | cons p procs ih =>
    intro seen
    cases hp : st p with
    | none =>
      rw [corrAux_cons_none st seen p _ hp]
      exact ih seen
    | some s =>
      by_cases hs : serverKey s ∈ seen
      · rw [corrAux_cons_seen st seen p _ s hp hs]
        exact ih seen
      · rw [corrAux_cons_new st seen p _ s hp hs]
        obtain ⟨ihnd, ihseen⟩ := ih (serverKey s :: seen)
        refine ⟨?_, ?_⟩
        · simp only [List.map_cons, List.nodup_cons]
          refine ⟨?_, ihnd⟩
          intro hk
          exact ihseen _ hk (List.mem_cons_self _ _)
        · intro k hk
          simp only [List.map_cons, List.mem_cons] at hk
          rcases hk with rfl | hk
          · exact hs
          · intro hks
            exact ihseen _ hk (List.mem_cons_of_mem _ hks)

theorem corr_mem_key (st : ProcessInfo → Option Server) :
    ∀ (procs : List ProcessInfo) (seen : List Str) (k : Str),
      k ∈ (corrAux st seen procs).map serverKey ↔
        (k ∉ seen ∧ ∃ p ∈ procs, ∃ s, st p = some s ∧ serverKey s = k) := by
  intro procs
  induction procs with
  | nil =>
    intro seen k
    simp [corrAux_nil]
  | cons p procs ih =>
    intro seen k
    cases hp : st p with
    | none =>
      rw [corrAux_cons_none st seen p _ hp, ih]
      constructor
      · rintro ⟨hks, q, hq, t, ht, hk⟩
        exact ⟨hks, q, List.mem_cons_of_mem _ hq, t, ht, hk⟩
      · rintro ⟨hks, q, hq, t, ht, hk⟩
        rcases List.mem_cons.mp hq with rfl | hq
        · rw [hp] at ht; cases ht
        · exact ⟨hks, q, hq, t, ht, hk⟩
    | some s =>
      by_cases hs : serverKey s ∈ seen
      · rw [corrAux_cons_seen st seen p _ s hp hs, ih]
        constructor
        · rintro ⟨hks, q, hq, t, ht, hk⟩
          exact ⟨hks, q, List.mem_cons_of_mem _ hq, t, ht, hk⟩
        · rintro ⟨hks, q, hq, t, ht, hk⟩
          rcases List.mem_cons.mp hq with rfl | hq
          · rw [hp] at ht
            obtain rfl : s = t := by injection ht
            subst hk
            exact absurd hs hks
          · exact ⟨hks, q, hq, t, ht, hk⟩
      · rw [corrAux_cons_new st seen p _ s hp hs]
        simp only [List.map_cons, List.mem_cons]
        rw [ih]
        constructor
        · rintro (rfl | ⟨hks, q, hq, t, ht, hk⟩)
          · exact ⟨hs, p, Or.inl rfl, s, hp, rfl⟩
          · refine ⟨fun hk2 => hks (List.mem_cons_of_mem _ hk2), q,
              Or.inr hq, t, ht, hk⟩
        · rintro ⟨hks, q, hq, t, ht, hk⟩
          rcases hq with rfl | hq
          · rw [hp] at ht
            obtain rfl : s = t := by injection ht
            left; exact hk.symm
          · by_cases hkeq : k = serverKey s
            · left; exact hkeq
            · right
              refine ⟨?_, q, hq, t, ht, hk⟩
              intro hmem
              rcases List.mem_cons.mp hmem with h | h
              · exact hkeq h
              · exact hks h

theorem filter_key_single :
    ∀ (l : List Server) (s : Server),
      (l.map serverKey).Nodup → s ∈ l →
      l.filter (fun t => serverKey t == serverKey s) = [s] := by
  intro l
  induction l with
  | nil =>
    intro s _ hs
    cases hs
  | cons h l ih =>
    intro s hnd hs
    simp only [List.map_cons, List.nodup_cons] at hnd
    obtain ⟨hh, hnd⟩ := hnd
    rcases List.mem_cons.mp hs with rfl | hs
    · simp only [List.filter_cons, beq_self_eq_true, if_true]
      have hnil : l.filter (fun t => serverKey t == serverKey s) = [] := by
        rw [List.filter_eq_nil_iff]
        intro t ht hbeq
        exact hh ((eq_of_beq hbeq) ▸ List.mem_map_of_mem serverKey ht)
      rw [hnil]
    · have hne : (serverKey h == serverKey s) = false := by
        by_contra hb
        have hb2 : (serverKey h == serverKey s) = true := by
          cases hv : (serverKey h == serverKey s)
          · exact absurd hv hb
          · rfl
        exact hh ((eq_of_beq hb2) ▸ List.mem_map_of_mem serverKey hs)
      simp only [List.filter_cons, hne, if_false]
      exact ih s hnd hs

/-- Claim C4: FindServers fails exactly when the enumeration command
fails; a successful enumeration always yields a server list, and any
per-item failure (a malformed or header line that does not parse, or a
record whose working directory or repository context is unavailable) only
removes that item from the result. -/
theorem findServers_error_isolation : ∀ env : Env,
    (∃ r, FindServersRel env r) ∧
    (∀ r, FindServersRel env r → ((∃ out, r = Except.ok out) ↔ env.lsofListen ≠ none)) ∧
    (∀ (pre : List Str) (l : Str) (post : List Str), parseLine l = none →
      pipelineServers env (pre ++ l :: post) = pipelineServers env (pre ++ post)) ∧
    (∀ (cwdf : Int → Option Str) (seen : List Str) (pre : List ProcessInfo)
        (p : ProcessInfo) (post : List ProcessInfo),
      stepA env cwdf p = none →
      corrAux (stepA env cwdf) seen (pre ++ p :: post) =
        corrAux (stepA env cwdf) seen (pre ++ post)) := by
  intro env
  refine ⟨?_, ?_, ?_, ?_⟩
  · cases hl : env.lsofListen with
    | none =>
      exact ⟨Except.error (), (findServersRel_err_iff env _ hl).mpr rfl⟩
    | some lines =>
      exact ⟨Except.ok (sortServers (pipelineServers env lines)),
        (findServersRel_ok_iff env lines _ hl).mpr
          ⟨sortServers (pipelineServers env lines),
            sortServers_spec (pipelineServers env lines), rfl⟩⟩
  · intro r hr
    cases hl : env.lsofListen with
    | none =>
      rw [findServersRel_err_iff env _ hl] at hr
      subst hr
      constructor
      · rintro ⟨out, h⟩; cases h
      · intro h; exact absurd rfl h
    | some lines =>
      rw [findServersRel_ok_iff env lines _ hl] at hr
      obtain ⟨out, -, rfl⟩ := hr
      constructor
      · intro _
        exact Option.some_ne_none lines
      · intro _
        exact ⟨out, rfl⟩
  · intro pre l post hl
    unfold pipelineServers
    rw [List.filterMap_append, List.filterMap_append, List.filterMap_cons_none hl]
  · intro cwdf seen pre p post hp
    exact corrAux_drop (stepA env cwdf) pre seen p post hp

/-- Claim C4 witness: the theorem applied to envOne (dropping its header
line leaves the result unchanged), to a record without a resolvable
working directory, and to the error-only run envBlankUrl. -/
theorem findServers_error_isolation_witness :
    (∃ r, FindServersRel envOne r) ∧
    pipelineServers envOne ([] ++ "COMMAND  PID USER   FD   TYPE DEVICE SIZE NODE NAME".data ::
        ["node 100 user 21u IPv4 0x0 0t0 TCP *:3001 (LISTEN)".data]) =
      pipelineServers envOne ([] ++ ["node 100 user 21u IPv4 0x0 0t0 TCP *:3001 (LISTEN)".data]) ∧
    corrAux (stepA envOne (fun _ => none)) []
        ([] ++ ⟨100, "node".data, 3001⟩ :: []) =
      corrAux (stepA envOne (fun _ => none)) [] ([] ++ []) ∧
    ¬ ∃ out, (Except.error () : Except Unit (List Server)) = Except.ok out := by
  refine ⟨(findServers_error_isolation envOne).1,
    (findServers_error_isolation envOne).2.2.1 []
      "COMMAND  PID USER   FD   TYPE DEVICE SIZE NODE NAME".data
      ["node 100 user 21u IPv4 0x0 0t0 TCP *:3001 (LISTEN)".data] (by decide),
    (findServers_error_isolation envOne).2.2.2 (fun _ => none) [] []
      ⟨100, "node".data, 3001⟩ [] (by decide),
    ?_⟩
  intro hex
  have h := (findServers_error_isolation envBlankUrl).2.1 (Except.error ())
    ((findServersRel_err_iff envBlankUrl _ rfl).mpr rfl)
  exact (h.mp hex) rfl

/-- Claim C1 (amended): the deduplication key is the four fields joined
with a vertical bar, so the output never contains two entries with the
same joined key — in particular no two entries share all four of
repository, branch, process and port — and a key appears in the output
exactly when some surviving record produces it.  Because the join is not
injective, groups are keyed by the joined string rather than by the
four-field tuple: a tuple whose key collides with an earlier distinct
tuple emits no entry (see the counterexample). -/
theorem findServers_key_unique : ∀ (env : Env) (lines : List Str) (out : List Server),
    env.lsofListen = some lines →
    FindServersRel env (Except.ok out) →
    ((out.map serverKey).Nodup ∧
     out.Pairwise (fun a b =>
       ¬ (a.Repo = b.Repo ∧ a.Branch = b.Branch ∧ a.Process = b.Process ∧ a.Port = b.Port)) ∧
     ∀ k, k ∈ out.map serverKey ↔
       ∃ p ∈ lines.filterMap parseLine,
         ∃ s, stepA env (batchGetProcessCWDs env
             ((lines.filterMap parseLine).map (fun q => q.pid))) p = some s ∧
           serverKey s = k) := by
  intro env lines out hl hr
  rw [findServersRel_ok_iff env lines _ hl] at hr
  obtain ⟨o, ⟨hperm, -⟩, heq⟩ := hr
  simp only [Except.ok.injEq] at heq
  subst heq
  have hraw : pipelineServers env lines =
      corrAux (stepA env (batchGetProcessCWDs env
        ((lines.filterMap parseLine).map (fun q => q.pid)))) []
        (lines.filterMap parseLine) := rfl
  rw [hraw] at hperm
  have hkeysperm := hperm.map serverKey
  have hnd := (corr_keys_nodup (stepA env (batchGetProcessCWDs env
    ((lines.filterMap parseLine).map (fun q => q.pid))))
    (lines.filterMap parseLine) []).1
  have hnodup : (out.map serverKey).Nodup := hkeysperm.nodup_iff.mpr hnd
  refine ⟨hnodup, ?_, ?_⟩
  · have hpw : out.Pairwise (fun a b => serverKey a ≠ serverKey b) := by
      rw [List.Nodup, List.pairwise_map] at hnodup
      exact hnodup
    refine hpw.imp ?_
    intro a b hne hfields
    obtain ⟨h1, h2, h3, h4⟩ := hfields
    apply hne
    unfold serverKey
    rw [h1, h2, h3, h4]
  · intro k
    rw [hkeysperm.mem_iff, corr_mem_key]
    simp

/-- Claim C1 witness: the theorem applied to the concrete run envOne. -/
theorem findServers_key_unique_witness :
    ([srvOne].map serverKey).Nodup ∧
    (serverKey srvOne ∈ [srvOne].map serverKey ↔
      ∃ p ∈ linesOne.filterMap parseLine,
        ∃ s, stepA envOne (batchGetProcessCWDs envOne
            ((linesOne.filterMap parseLine).map (fun q => q.pid))) p = some s ∧
          serverKey s = serverKey srvOne) := by
  have h := findServers_key_unique envOne linesOne [srvOne] rfl
    ((findServersRel_ok_iff envOne linesOne _ rfl).mpr
      ⟨[srvOne], ⟨by decide, by decide⟩, rfl⟩)
  exact ⟨h.1, h.2.2 (serverKey srvOne)⟩

/-- Claim C1 counterexample: in the run envDup both records survive with
distinct (repository, branch, process, port) tuples whose joined keys
coincide; the group of the second tuple emits no ServerEntry at all, so
it is not the case that every surviving tuple group emits exactly one
entry.  The final sort only permutes the emitted list, so the sorted
output has no entry with that tuple either. -/
theorem findServers_tuple_dedup_cex :
    pipelineServers envDup linesDup = [srvDupA] ∧
    linesDup.filterMap parseLine =
      [⟨100, "node".data, 3000⟩, ⟨200, "node".data, 3000⟩] ∧
    stepA envDup (batchGetProcessCWDs envDup [100, 200])
      ⟨200, "node".data, 3000⟩ = some srvDupB ∧
    serverKey srvDupA = serverKey srvDupB ∧
    (srvDupB.Repo, srvDupB.Branch, srvDupB.Process, srvDupB.Port) ≠
      (srvDupA.Repo, srvDupA.Branch, srvDupA.Process, srvDupA.Port) ∧
    [srvDupA].filter (fun t => decide (t.Repo = srvDupB.Repo ∧ t.Branch = srvDupB.Branch ∧
      t.Process = srvDupB.Process ∧ t.Port = srvDupB.Port)) = [] :=
  ⟨by decide, by decide, by decide, by decide, by decide, by decide⟩

/-- A list that is a permutation of a singleton is that singleton. -/
theorem perm_singleton_eq : ∀ (l : List Server) (a : Server), l.Perm [a] → l = [a] := by
  intro l a h
  have hlen := h.length_eq
  cases l with
  | nil => cases hlen
  | cons x xs =>
    cases xs with
    | nil =>
      have hx : x ∈ [a] := h.mem_iff.mp (List.mem_cons_self _ _)
      rw [List.mem_singleton.mp hx]
    | cons y ys => simp at hlen

/-- Inversion of one correlation step: a surviving record's entry carries
its resolved directory, command and port. -/
theorem stepA_inv : ∀ (env : Env) (cwdf : Int → Option Str) (p : ProcessInfo) (s : Server),
    stepA env cwdf p = some s →
    ∃ dir, cwdf p.pid = some dir ∧ s.CWD = dir ∧ s.Process = p.command ∧ s.Port = p.port := by
  intro env cwdf p s hp
  unfold stepA at hp
  cases hcwd : cwdf p.pid with
  | none => simp [hcwd] at hp
  | some dir =>
    simp only [hcwd] at hp
    by_cases hdir : dir = []
    · simp [hdir] at hp
    · simp only [if_neg hdir] at hp
      cases hrepo : gitRepoCacheF env dir with
      | false => simp [hrepo] at hp
      | true =>
        simp only [hrepo, Bool.not_true, Bool.false_eq_true, if_false] at hp
        cases hinfo : gitInfoCacheF env dir with
        | none => simp [hinfo] at hp
        | some info =>
          simp only [hinfo] at hp
          injection hp with h
          subst h
          exact ⟨dir, rfl, rfl, rfl, rfl⟩

/-- Claim C10: deduplication keeps the first occurrence — when a record
survives and no earlier record produced its identity key, the unique
entry of the output carrying that key is the one built from that record,
whose workingDirectory is the resolved directory of that record; the
final sort, a permutation, preserves this. -/
theorem dedup_first_occurrence : ∀ (env : Env) (cwdf : Int → Option Str)
    (pre : List ProcessInfo) (p : ProcessInfo) (post : List ProcessInfo) (s : Server),
    stepA env cwdf p = some s →
    (∀ q ∈ pre, ∀ t, stepA env cwdf q = some t → serverKey t ≠ serverKey s) →
    ((corrAux (stepA env cwdf) [] (pre ++ p :: post)).filter
        (fun t => serverKey t == serverKey s) = [s] ∧
     (∃ dir, cwdf p.pid = some dir ∧ s.CWD = dir ∧
        s.Process = p.command ∧ s.Port = p.port) ∧
     ∀ out, SortSliceSpec (corrAux (stepA env cwdf) [] (pre ++ p :: post)) out →
       out.filter (fun t => serverKey t == serverKey s) = [s]) := by
  intro env cwdf pre p post s hp hpre
  have hseen : serverKey s ∉ seenOut (stepA env cwdf) [] pre := by
    rw [seenOut_mem]
    rintro (h | h)
    · cases h
    · rw [corr_mem_key] at h
      obtain ⟨-, q, hq, t, ht, hk⟩ := h
      exact hpre q hq t ht hk
  have hsplit : corrAux (stepA env cwdf) [] (pre ++ p :: post) =
      corrAux (stepA env cwdf) [] pre ++
        s :: corrAux (stepA env cwdf)
          (serverKey s :: seenOut (stepA env cwdf) [] pre) post := by
    rw [corrAux_append]
    rw [corrAux_cons_new (stepA env cwdf) _ p post s hp hseen]
  have hmem : s ∈ corrAux (stepA env cwdf) [] (pre ++ p :: post) := by
    rw [hsplit]
    exact List.mem_append_right _ (List.mem_cons_self _ _)
  have hnd := (corr_keys_nodup (stepA env cwdf) (pre ++ p :: post) []).1
  have h1 := filter_key_single _ s hnd hmem
  refine ⟨h1, ?_, ?_⟩
  · exact stepA_inv env cwdf p s hp
  · intro out hout
    obtain ⟨hperm, -⟩ := hout
    have hfp := hperm.filter (fun t => serverKey t == serverKey s)
    rw [h1] at hfp
    exact perm_singleton_eq _ s hfp

/-- Claim C10 witness: in the run envTie the ruby record is the first of
its key, and the emitted entry for that key is built from it. -/
theorem dedup_first_occurrence_witness :
    (corrAux (stepA envTie (batchGetProcessCWDs envTie [100, 200])) []
        ([⟨100, "node".data, 3000⟩] ++ ⟨200, "ruby".data, 3000⟩ :: [])).filter
      (fun t => serverKey t == serverKey srvTieB) = [srvTieB] := by
  have hpre : ∀ q ∈ [(⟨100, "node".data, 3000⟩ : ProcessInfo)], ∀ t,
      stepA envTie (batchGetProcessCWDs envTie [100, 200]) q = some t →
      serverKey t ≠ serverKey srvTieB := by
    intro q hq t ht
    have hq2 := List.mem_singleton.mp hq
    subst hq2
    rw [show stepA envTie (batchGetProcessCWDs envTie [100, 200])
        ⟨100, "node".data, 3000⟩ = some srvTieA from by decide] at ht
    obtain rfl : srvTieA = t := by injection ht
    decide
  exact (dedup_first_occurrence envTie (batchGetProcessCWDs envTie [100, 200])
    [⟨100, "node".data, 3000⟩] ⟨200, "ruby".data, 3000⟩ [] srvTieB (by decide) hpre).1

/-- Claim C5: for a confirmed repository directory whose branch query
fails, GetBranch returns the sentinel label instead of an error, and a
record resolving to that directory still yields a ServerEntry carrying
the sentinel branch; when its key is new, the entry is emitted by the
correlation loop rather than dropped. -/
theorem branch_sentinel_emitted : ∀ (env : Env) (cwdf : Int → Option Str)
    (pre : List ProcessInfo) (p : ProcessInfo) (post : List ProcessInfo) (dir cl : Str),
    cwdf p.pid = some dir → dir ≠ [] →
    IsRepo env dir = true →
    ValidateDir env dir = some cl →
    env.branchCmd cl = none →
    (GetBranch env dir = naLabel ∧
     ∃ s, stepA env cwdf p = some s ∧ s.Branch = naLabel ∧
       s.Process = p.command ∧ s.Port = p.port ∧
       (serverKey s ∉ (corrAux (stepA env cwdf) [] pre).map serverKey →
         s ∈ corrAux (stepA env cwdf) [] (pre ++ p :: post))) := by
  intro env cwdf pre p post dir cl hcwd hdir hrepo hvd hbc
  have hbranch : GetBranch env dir = naLabel := by
    unfold GetBranch
    rw [hvd]
    simp [hbc]
  have hstep : stepA env cwdf p =
      some ⟨GetRepoName env dir, naLabel, p.command, p.port, 0, dir⟩ := by
    unfold stepA
    rw [hcwd]
    simp [hdir, gitRepoCacheF, hrepo, gitInfoCacheF, getGitInfo, hbranch]
  refine ⟨hbranch, ⟨GetRepoName env dir, naLabel, p.command, p.port, 0, dir⟩,
    hstep, rfl, rfl, rfl, ?_⟩
  intro hnot
  have hseen : serverKey (⟨GetRepoName env dir, naLabel, p.command, p.port, 0, dir⟩ : Server) ∉
      seenOut (stepA env cwdf) [] pre := by
    rw [seenOut_mem]
    rintro (h | h)
    · cases h
    · exact hnot h
  rw [corrAux_append, corrAux_cons_new (stepA env cwdf) _ p post _ hstep hseen]
  exact List.mem_append_right _ (List.mem_cons_self _ _)

/-- Claim C5 witness: the theorem applied to the run envNoBranch, whose
branch query fails for the single listener directory. -/
theorem branch_sentinel_emitted_witness :
    GetBranch envNoBranch "/a".data = naLabel ∧
    ∃ s, stepA envNoBranch (batchGetProcessCWDs envNoBranch [100])
        ⟨100, "node".data, 3000⟩ = some s ∧
      s.Branch = naLabel ∧ s.Process = "node".data ∧ s.Port = 3000 ∧
      (serverKey s ∉ (corrAux (stepA envNoBranch (batchGetProcessCWDs envNoBranch [100]))
          [] []).map serverKey →
        s ∈ corrAux (stepA envNoBranch (batchGetProcessCWDs envNoBranch [100]))
          [] ([] ++ ⟨100, "node".data, 3000⟩ :: [])) :=
  branch_sentinel_emitted envNoBranch (batchGetProcessCWDs envNoBranch [100])
    [] ⟨100, "node".data, 3000⟩ [] "/a".data "/a".data
    (by decide) (by decide) (by decide) (by decide) rfl

/-- A hit of the n-record scan is an absPath result. -/
theorem firstNLine_some : ∀ (env : Env) (outLines : List Str) (c : Str),
    firstNLine env outLines = some c → ∃ s, env.absPath s = some c := by
  intro env outLines
  induction outLines with
  | nil => intro c h; cases h
  | cons line rest ih =>
    intro c h
    unfold firstNLine at h
    split_ifs at h
    · exact ⟨line.drop 1, h⟩
    · exact ih c h

/-- When absPath never returns the empty path, a successful individual
working-directory lookup is non-empty. -/
theorem getProcessCWD_ne_nil : ∀ (env : Env),
    (∀ s r, env.absPath s = some r → r ≠ []) →
    ∀ (q : Int) (c : Str), getProcessCWD env q = some c → c ≠ [] := by
  intro env habs q c h
  unfold getProcessCWD at h
  by_cases hv : (!validPID q) = true
  · rw [if_pos hv] at h; cases h
  · rw [if_neg hv] at h
    by_cases hm : env.isMacOS = true
    · rw [if_pos hm] at h
      cases hs : env.singleCwd q with
      | none => simp [hs] at h
      | some outLines =>
        simp only [hs] at h
        obtain ⟨s, hsome⟩ := firstNLine_some env outLines c h
        exact habs s c hsome
    · rw [if_neg hm] at h
      by_cases hl : env.lstatSymlink q = true
      · rw [if_pos hl] at h
        cases hr : env.readlink q with
        | none => simp [hr] at h
        | some cwd =>
          simp only [hr] at h
          exact habs cwd c h
      · rw [if_neg hl] at h; cases h

/-- Pointwise description of the per-pid fallback accumulation. -/
theorem fbAux_lookup : ∀ (env : Env) (pids : List Int) (m : Int → Option Str) (q : Int),
    fbAux env m pids q =
      match getProcessCWD env q with
      | some c => if q ∈ pids ∧ c ≠ [] then some c else m q
      | none => m q := by
  intro env pids
  induction pids with
  | nil =>
    intro m q
    cases h : getProcessCWD env q <;> simp [fbAux, h]
  | cons pid rest ih =>
    intro m q
    cases hg : getProcessCWD env pid with
    | none =>
      rw [show fbAux env m (pid :: rest) = fbAux env m rest from by simp [fbAux, hg]]
      rw [ih m q]
      cases hq : getProcessCWD env q with
      | none => rfl
      | some c =>
        by_cases hqp : q = pid
        · subst hqp; rw [hq] at hg; cases hg
        · simp [List.mem_cons, hqp]
    | some c =>
      by_cases hc : c = []
      · subst hc
        rw [show fbAux env m (pid :: rest) = fbAux env m rest from by simp [fbAux, hg]]
        rw [ih m q]
        cases hq : getProcessCWD env q with
        | none => rfl
        | some c' =>
          by_cases hqp : q = pid
          · subst hqp
            rw [hq] at hg
            injection hg with h
            subst h
            simp
          · simp [List.mem_cons, hqp]
      · rw [show fbAux env m (pid :: rest) = fbAux env (mapUpd m pid c) rest from by
          simp [fbAux, hg, hc]]
        rw [ih (mapUpd m pid c) q]
        cases hq : getProcessCWD env q with
        | none =>
          by_cases hqp : q = pid
          · subst hqp; rw [hq] at hg; cases hg
          · simp [mapUpd, hqp]
        | some c' =>
          by_cases hqp : q = pid
          · subst hqp
            rw [hq] at hg
            injection hg with h
            subst h
            by_cases hmem : q ∈ rest
            · simp [mapUpd, hc, List.mem_cons, hmem]
            · simp [mapUpd, hc, List.mem_cons, hmem]
          · simp [mapUpd, hqp, List.mem_cons]

/-- Claim C6: when the combined macOS working-directory query for the pid
list fails, batchGetProcessCWDs is the per-pid fallback, and — provided
absPath never returns an empty path, as filepath.Abs cannot — the
fallback map holds exactly the pids whose individual query succeeds, with
the individually resolved directory. -/
theorem batch_fallback_per_pid : ∀ (env : Env) (pids : List Int),
    env.isMacOS = true →
    env.batchCwd pids = none →
    (∀ s r, env.absPath s = some r → r ≠ []) →
    (∀ q, batchGetProcessCWDs env pids q = fallbackGetCWDs env pids q) ∧
    (∀ (q : Int) (c : Str), fallbackGetCWDs env pids q = some c ↔
      (q ∈ pids ∧ getProcessCWD env q = some c)) := by
  intro env pids hmac hbatch habs
  constructor
  · intro q
    by_cases hnil : pids = []
    · subst hnil
      simp [batchGetProcessCWDs, fallbackGetCWDs, fbAux]
    · unfold batchGetProcessCWDs
      rw [if_neg hnil, if_pos hmac, hbatch]
  · intro q c
    unfold fallbackGetCWDs
    cases hq : getProcessCWD env q with
    | none =>
      simp only [fbAux_lookup, hq]
      constructor
      · intro h; cases h
      · rintro ⟨-, h⟩; cases h
    | some c' =>
      simp only [fbAux_lookup, hq]
      by_cases hcond : q ∈ pids ∧ c' ≠ []
      · rw [if_pos hcond]
        constructor
        · intro h
          exact ⟨hcond.1, h⟩
        · rintro ⟨-, h⟩
          exact h
      · rw [if_neg hcond]
        constructor
        · intro h; cases h
        · rintro ⟨hmem, h⟩
          injection h with h
          subst h
          exact absurd ⟨hmem, getProcessCWD_ne_nil env habs q _ hq⟩ hcond

/-- Claim C6 witness: the theorem applied to envBatchFail, whose combined
query fails; pid 100 resolves individually, pid 200 does not. -/
theorem batch_fallback_per_pid_witness :
    batchGetProcessCWDs envBatchFail [100, 200] 100 = some "/a".data ∧
    batchGetProcessCWDs envBatchFail [100, 200] 200 = none ∧
    (100 ∈ [(100 : Int), 200] ∧ getProcessCWD envBatchFail 100 = some "/a".data) := by
  have habs : ∀ s r, envBatchFail.absPath s = some r → r ≠ [] := by
    intro s r h
    by_cases hs : s = []
    · simp [envBatchFail, hs] at h
    · simp only [envBatchFail, if_neg hs] at h
      injection h with h
      subst h
      exact hs
  have h := batch_fallback_per_pid envBatchFail [100, 200] rfl rfl habs
  refine ⟨(h.1 100).trans (by decide), (h.1 200).trans (by decide),
    (h.2 100 "/a".data).mp (by decide)⟩

/-- goSplit pieces are never empty as a list. -/
theorem splitGo_ne_nil : ∀ (sep : Char) (v acc : Str), splitGo sep v acc ≠ [] := by
  intro sep v
  induction v with
  | nil => intro acc h; cases h
  | cons c rest ih =>
    intro acc
    unfold splitGo
    by_cases hc : c = sep
    · rw [if_pos hc]
      intro h; cases h
    · rw [if_neg hc]
      exact ih (c :: acc)

/-- getLast? ignores the head when the tail is non-empty. -/
theorem getLast?_cons_ne_nil : ∀ {α : Type} (a : α) (l : List α), l ≠ [] →
    (a :: l).getLast? = l.getLast? := by
  intro α a l h
  cases l with
  | nil => exact absurd rfl h
  | cons b bs => exact List.getLast?_cons_cons

/-- Defining equation of afterLastSlash on a non-empty string. -/
theorem als_cons : ∀ (c : Char) (rest : Str),
    afterLastSlash (c :: rest) =
      if '/' ∈ rest then afterLastSlash rest
      else if c = '/' then rest else c :: rest := by
  intro c rest
  rfl

/-- The last piece of the accumulating split is the suffix after the last
slash, or the pending accumulator when no slash remains. -/
theorem splitGo_getLast : ∀ (v acc : Str),
    (splitGo '/' v acc).getLast? =
      some (if '/' ∈ v then afterLastSlash v else acc.reverse ++ v) := by
  intro v
  induction v with
  | nil =>
    intro acc
    simp [splitGo]
  | cons c rest ih =>
    intro acc
    unfold splitGo
    by_cases hc : c = '/'
    · subst hc
      rw [if_pos rfl, getLast?_cons_ne_nil _ _ (splitGo_ne_nil '/' rest []), ih []]
      by_cases hr : '/' ∈ rest
      · simp [hr, als_cons]
      · simp [hr, als_cons]
    · rw [if_neg hc, ih (c :: acc)]
      by_cases hr : '/' ∈ rest
      · simp [hr, hc, als_cons]
      · have hm : '/' ∉ c :: rest := by
          intro h
          rcases List.mem_cons.mp h with h | h
          · exact hc h.symm
          · exact hr h
        simp [hr, hm]

/-- The part of a slash-separated value after the last slash, as computed
by the Split and last-index steps of GetRepoName. -/
theorem goSplit_getLast : ∀ v : Str, (goSplit v '/').getLast? = some (afterLastSlash v) := by
  intro v
  unfold goSplit
  rw [splitGo_getLast]
  by_cases h : '/' ∈ v
  · rw [if_pos h]
  · rw [if_neg h]
    congr 1
    cases v with
    | nil => rfl
    | cons c rest =>
      have hr : '/' ∉ rest := fun hm => h (List.mem_cons_of_mem _ hm)
      have hc : ¬ c = '/' := fun hm => h (hm ▸ List.mem_cons_self _ _)
      rw [als_cons, if_neg hr, if_neg hc]
      simp

/-- Claim C7 (amended): for a valid directory, display-name resolution
returns the base name when the remote query fails or its raw output is
empty; when the raw output is non-empty it returns the suffix after the
last slash of the white-space-trimmed output with a trailing ".git"
stripped — which is the empty string, not the base name, when the output
is only white space (see the counterexample). -/
theorem getRepoName_resolution : ∀ (env : Env) (dir cl : Str),
    ValidateDir env dir = some cl →
    ((env.remoteUrl cl = none → GetRepoName env dir = baseName cl) ∧
     (env.remoteUrl cl = some [] → GetRepoName env dir = baseName cl) ∧
     (∀ out, env.remoteUrl cl = some out → out ≠ [] →
        GetRepoName env dir = trimSuffix (afterLastSlash (trimSpace out)) ".git".data)) := by
  intro env dir cl hvd
  refine ⟨?_, ?_, ?_⟩
  · intro hurl
    unfold GetRepoName
    simp only [hvd, hurl]
  · intro hurl
    unfold GetRepoName
    simp only [hvd, hurl]
    simp
  · intro out hurl hne
    unfold GetRepoName
    simp only [hvd, hurl]
    rw [if_pos (by simpa [List.length_pos] using hne)]
    rw [goSplit_getLast]

/-- Claim C7 witness: the theorem applied to the run envOne, whose origin
remote is git at host, org slash repo-a dot git. -/
theorem getRepoName_resolution_witness :
    GetRepoName envOne "/repo-a".data = "repo-a".data :=
  (((getRepoName_resolution envOne "/repo-a".data "/repo-a".data (by decide)).2.2
    "git@host:org/repo-a.git\n".data rfl (by decide)).trans (by decide))

/-- Claim C7 counterexample: a remote query that succeeds with
white-space-only output.  The value is present but empty, so the claim
prescribes the directory base name; the code returns the empty string
instead. -/
theorem getRepoName_cex :
    ValidateDir envBlankUrl "/home/u/myrepo".data = some "/home/u/myrepo".data ∧
    envBlankUrl.remoteUrl "/home/u/myrepo".data = some "\n".data ∧
    trimSpace "\n".data = [] ∧
    GetRepoName envBlankUrl "/home/u/myrepo".data = [] ∧
    claimRepoName envBlankUrl "/home/u/myrepo".data = "myrepo".data ∧
    baseName "/home/u/myrepo".data = "myrepo".data ∧
    GetRepoName envBlankUrl "/home/u/myrepo".data ≠
      claimRepoName envBlankUrl "/home/u/myrepo".data := by
  refine ⟨by decide, rfl, by decide, by decide, by decide, by decide, by decide⟩

/-! Listener-pattern scanner facts. -/

theorem takeWhile_append_all {α : Type} (p : α → Bool) :
    ∀ (d r : List α), (∀ c ∈ d, p c = true) → (d ++ r).takeWhile p = d ++ r.takeWhile p := by
  intro d
  induction d with
  | nil => intro r _; simp
  | cons c cs ih =>
    intro r hall
    have hc : p c = true := hall c (List.mem_cons_self _ _)
    simp only [List.cons_append, List.takeWhile_cons, hc, if_true]
    rw [ih r (fun x hx => hall x (List.mem_cons_of_mem _ hx))]

theorem dropWhile_append_all {α : Type} (p : α → Bool) :
    ∀ (d r : List α), (∀ c ∈ d, p c = true) → (d ++ r).dropWhile p = r.dropWhile p := by
  intro d
  induction d with
  | nil => intro r _; simp
  | cons c cs ih =>
    intro r hall
    have hc : p c = true := hall c (List.mem_cons_self _ _)
    simp only [List.cons_append, List.dropWhile_cons, hc, if_true]
    exact ih r (fun x hx => hall x (List.mem_cons_of_mem _ hx))

/-- The regexp white-space class and digit class are disjoint. -/
theorem isReSpace_not_digit : ∀ c : Char, isReSpace c = true → isReDigit c = false := by
  intro c h
  unfold isReSpace at h
  simp only [Bool.or_eq_true, decide_eq_true_eq] at h
  rcases h with ((((h | h) | h) | h) | h) <;> subst h <;> decide

/-- A prefix test against the concatenation of the pattern itself. -/
theorem isPrefixOf_append_self : ∀ (l r : Str), l.isPrefixOf (l ++ r) = true := by
  intro l r
  rw [List.isPrefixOf_iff_prefix]
  exact List.prefix_append l r

/-- Defining equation of one anchored attempt on a non-empty suffix. -/
theorem tryListen_cons : ∀ (c : Char) (rest : Str),
    tryListen (c :: rest) =
      if c = ':' then
        if rest.takeWhile isReDigit = [] then none
        else if (rest.dropWhile isReDigit).takeWhile isReSpace = [] then none
        else if listenLit.isPrefixOf ((rest.dropWhile isReDigit).dropWhile isReSpace) then
          some (rest.takeWhile isReDigit)
        else none
      else none := by
  intro c rest
  rfl

/-- One anchored attempt succeeds on an exact pattern occurrence,
returning precisely the digit group. -/
theorem tryListen_hit : ∀ (d w s2 : Str),
    d ≠ [] → d.all isReDigit = true → w ≠ [] → w.all isReSpace = true →
    tryListen (':' :: (d ++ w ++ listenLit ++ s2)) = some d := by
  intro d w s2 hd hdall hw hwall
  obtain ⟨wh, wt, rfl⟩ : ∃ wh wt, w = wh :: wt := by
    cases w with
    | nil => exact absurd rfl hw
    | cons wh wt => exact ⟨wh, wt, rfl⟩
  have hassoc : d ++ (wh :: wt) ++ listenLit ++ s2 =
      d ++ ((wh :: wt) ++ (listenLit ++ s2)) := by
    simp [List.append_assoc]
  have hdt : ∀ c ∈ d, isReDigit c = true := List.all_eq_true.mp hdall
  have hwt : ∀ c ∈ wh :: wt, isReSpace c = true := List.all_eq_true.mp hwall
  have hwh : isReDigit wh = false :=
    isReSpace_not_digit wh (hwt wh (List.mem_cons_self _ _))
  have hparen : isReSpace '(' = false := by decide
  have hlit : listenLit ++ s2 = '(' :: ("LISTEN)".data ++ s2) := rfl
  have htw : (d ++ ((wh :: wt) ++ (listenLit ++ s2))).takeWhile isReDigit = d := by
    rw [takeWhile_append_all isReDigit d _ hdt]
    simp only [List.cons_append, List.takeWhile_cons, hwh]
    simp
  have hdw : (d ++ ((wh :: wt) ++ (listenLit ++ s2))).dropWhile isReDigit =
      (wh :: wt) ++ (listenLit ++ s2) := by
    rw [dropWhile_append_all isReDigit d _ hdt]
    simp only [List.cons_append, List.dropWhile_cons, hwh]
    simp
  have htw2 : ((wh :: wt) ++ (listenLit ++ s2)).takeWhile isReSpace = wh :: wt := by
    rw [takeWhile_append_all isReSpace _ _ hwt, hlit]
    simp only [List.takeWhile_cons, hparen]
    simp
  have hdw2 : ((wh :: wt) ++ (listenLit ++ s2)).dropWhile isReSpace = listenLit ++ s2 := by
    rw [dropWhile_append_all isReSpace _ _ hwt, hlit]
    simp only [List.dropWhile_cons, hparen]
    simp [hlit]
  rw [hassoc, tryListen_cons, if_pos rfl, htw, hdw, htw2, hdw2]
  rw [if_neg hd, if_neg hw, if_pos (isPrefixOf_append_self listenLit s2)]

/-- Defining equation of the scanner on a non-empty line. -/
theorem scanListen_cons : ∀ (c : Char) (rest : Str),
    scanListen (c :: rest) =
      match tryListen (c :: rest) with
      | some ds => some ds
      | none => scanListen rest := by
  intro c rest
  rfl

/-- Scanner completeness: a pattern occurrence anywhere in the line makes
the scan succeed. -/
theorem scan_complete : ∀ (s1 d w s2 : Str),
    d ≠ [] → d.all isReDigit = true → w ≠ [] → w.all isReSpace = true →
    (scanListen (s1 ++ ':' :: (d ++ w ++ listenLit ++ s2))).isSome = true := by
  intro s1
  induction s1 with
  | nil =>
    intro d w s2 hd hdall hw hwall
    rw [List.nil_append, scanListen_cons, tryListen_hit d w s2 hd hdall hw hwall]
    rfl
  | cons c s1 ih =>
    intro d w s2 hd hdall hw hwall
    rw [List.cons_append, scanListen_cons]
    cases h : tryListen (c :: (s1 ++ ':' :: (d ++ w ++ listenLit ++ s2))) with
    | some ds => rfl
    | none => exact ih d w s2 hd hdall hw hwall

/-- Inversion of one anchored attempt: a hit decomposes its input as the
pattern requires. -/
theorem tryListen_inv : ∀ (x ds : Str), tryListen x = some ds →
    ∃ d w s2, x = ':' :: (d ++ w ++ listenLit ++ s2) ∧ ds = d ∧
      d ≠ [] ∧ d.all isReDigit = true ∧ w ≠ [] ∧ w.all isReSpace = true := by
  intro x ds h
  cases x with
  | nil => cases h
  | cons c rest =>
    rw [tryListen_cons] at h
    by_cases hc : c = ':'
    swap
    · rw [if_neg hc] at h; cases h
    subst hc
    rw [if_pos rfl] at h
    by_cases h1 : rest.takeWhile isReDigit = []
    · rw [if_pos h1] at h; cases h
    rw [if_neg h1] at h
    by_cases h2 : (rest.dropWhile isReDigit).takeWhile isReSpace = []
    · rw [if_pos h2] at h; cases h
    rw [if_neg h2] at h
    by_cases h3 : listenLit.isPrefixOf ((rest.dropWhile isReDigit).dropWhile isReSpace) = true
    swap
    · rw [if_neg h3] at h; cases h
    rw [if_pos h3] at h
    injection h with h
    subst h
    obtain ⟨s2, hs2⟩ : ∃ s2,
        listenLit ++ s2 = (rest.dropWhile isReDigit).dropWhile isReSpace := by
      rw [List.isPrefixOf_iff_prefix] at h3
      exact h3
    refine ⟨rest.takeWhile isReDigit, (rest.dropWhile isReDigit).takeWhile isReSpace,
      s2, ?_, rfl, h1, ?_, h2, ?_⟩
    · rw [List.append_assoc, List.append_assoc, hs2]
      rw [List.takeWhile_append_dropWhile, List.takeWhile_append_dropWhile]
    · rw [List.all_eq_true]
      intro c hc
      exact List.mem_takeWhile_imp hc
    · rw [List.all_eq_true]
      intro c hc
      exact List.mem_takeWhile_imp hc

/-- Scanner soundness: a successful scan exhibits a pattern occurrence. -/
theorem scan_sound : ∀ (l ds : Str), scanListen l = some ds → HasListen l := by
  intro l
  induction l with
  | nil => intro ds h; cases h
  | cons c rest ih =>
    intro ds h
    rw [scanListen_cons] at h
    cases ht : tryListen (c :: rest) with
    | some ds' =>
      obtain ⟨d, w, s2, hx, -, hd, hdall, hw, hwall⟩ := tryListen_inv (c :: rest) ds' ht
      exact ⟨[], d, w, s2, by rw [hx]; rfl, hd, hdall, hw, hwall⟩
    | none =>
      rw [ht] at h
      obtain ⟨s1, d, w, s2, hx, hd, hdall, hw, hwall⟩ := ih ds h
      exact ⟨c :: s1, d, w, s2, by rw [List.cons_append, hx], hd, hdall, hw, hwall⟩

/-- Claim C8 (amended): port extraction applies the precise pattern
first — an occurrence of the colon-digits-spaces-(LISTEN) pattern
anywhere in the line makes the scan succeed, and the result is then the
numeric value of the matched digit group — and only when the pattern is
absent does it fall back to parsing the part of the ninth field after
its last colon as an integer (not the trailing numeric suffix of the
field, see the counterexample); it yields 0 when neither succeeds. -/
theorem extractPort_order : ∀ l : Str,
    (HasListen l ↔ (scanListen l).isSome = true) ∧
    (∀ ds, scanListen l = some ds → HasListen l ∧ extractPort l = atoiOr0 ds) ∧
    (¬ HasListen l → extractPort l = fallbackNinth l) ∧
    (¬ HasListen l → (goFields l).length < 9 → extractPort l = 0) := by
  intro l
  have hiff : HasListen l ↔ (scanListen l).isSome = true := by
    constructor
    · rintro ⟨s1, d, w, s2, rfl, hd, hdall, hw, hwall⟩
      exact scan_complete s1 d w s2 hd hdall hw hwall
    · intro h
      cases hs : scanListen l with
      | none => rw [hs] at h; cases h
      | some ds => exact scan_sound l ds hs
  have hnone : ¬ HasListen l → scanListen l = none := by
    intro hnot
    cases hs : scanListen l with
    | none => rfl
    | some ds => exact absurd (scan_sound l ds hs) hnot
  refine ⟨hiff, ?_, ?_, ?_⟩
  · intro ds hs
    exact ⟨scan_sound l ds hs, by simp only [extractPort, hs]⟩
  · intro hnot
    simp only [extractPort, hnone hnot]
  · intro hnot hlen
    simp only [extractPort, hnone hnot]
    unfold fallbackNinth
    rw [if_neg (not_le.mpr hlen)]

/-- Claim C8 witness: the theorem applied to a line carrying the precise
pattern and to a pattern-free line that uses the ninth-field fallback. -/
theorem extractPort_order_witness :
    (HasListen "node 100 user 21u IPv4 0x0 0t0 TCP *:3001 (LISTEN)".data ∧
     extractPort "node 100 user 21u IPv4 0x0 0t0 TCP *:3001 (LISTEN)".data =
       atoiOr0 "3001".data) ∧
    extractPort "a 1 c d e f g h 1.2.3.4:4000".data =
      fallbackNinth "a 1 c d e f g h 1.2.3.4:4000".data := by
  have h1 := (extractPort_order "node 100 user 21u IPv4 0x0 0t0 TCP *:3001 (LISTEN)".data).2.1
    "3001".data (by decide)
  have h2 := extractPort_order "a 1 c d e f g h 1.2.3.4:4000".data
  refine ⟨h1, h2.2.2.1 ?_⟩
  intro hl
  have hsome := h2.1.mp hl
  rw [show scanListen "a 1 c d e f g h 1.2.3.4:4000".data = none from by decide] at hsome
  simp at hsome

/-- Claim C8 counterexample: a pattern-free line whose ninth field is
foo123.  The field has the trailing numeric suffix 123, but the code
parses the whole segment after the last colon (foo123), fails, and
yields 0 — not 123 as the claim's description of the fallback requires. -/
theorem extractPort_fallback_cex :
    scanListen "a 1 c d e f g h foo123".data = none ∧
    ¬ HasListen "a 1 c d e f g h foo123".data ∧
    extractPort "a 1 c d e f g h foo123".data = 0 ∧
    claimFallbackPort "a 1 c d e f g h foo123".data = some 123 ∧
    trailingDigits ((goFields "a 1 c d e f g h foo123".data).getD 8 []) = "123".data := by
  refine ⟨by decide, ?_, by decide, by decide, by decide⟩
  rintro ⟨s1, d, w, s2, heq, hd, hdall, hw, hwall⟩
  have hsome := scan_complete s1 d w s2 hd hdall hw hwall
  rw [← heq] at hsome
  rw [show scanListen "a 1 c d e f g h foo123".data = none from by decide] at hsome
  simp at hsome

/-- An accepted port is 2000 or at least 3000. -/
theorem isDevPort_true_cases : ∀ p : Int, isDevPort p = true → (p = 2000 ∨ 3000 ≤ p) := by
  intro p h
  unfold isDevPort at h
  split_ifs at h with a b c
  · right; omega
  · left; exact c

/-- Claim C9 (amended): every record the first pass produces has a
validated positive processID of at most 2147483647, and a classified
port equal to 2000 or at least 3000 — in particular at least 1 — but no
upper bound of 65535 is enforced anywhere (see the counterexample). -/
theorem parseLine_bounds : ∀ (l : Str) (r : ProcessInfo),
    parseLine l = some r →
    0 < r.pid ∧ r.pid ≤ 2147483647 ∧ (r.port = 2000 ∨ 3000 ≤ r.port) := by
  intro l r h
  simp only [parseLine] at h
  by_cases h0 : ("COMMAND".data.isPrefixOf l) = true
  · rw [if_pos h0] at h; cases h
  rw [if_neg h0] at h
  by_cases h1 : (goFields l).length < 9
  · rw [if_pos h1] at h; cases h
  rw [if_neg h1] at h
  by_cases h2 : (extractPort l == 0 || !isDevPort (extractPort l)) = true
  · rw [if_pos h2] at h; cases h
  rw [if_neg h2] at h
  cases ha : goAtoi ((goFields l).getD 1 []) with
  | none => simp only [ha] at h; cases h
  | some pid =>
    simp only [ha] at h
    by_cases hv : validPID pid = true
    · rw [if_pos hv] at h
      injection h with h
      subst h
      simp only [validPID, Bool.and_eq_true, decide_eq_true_eq] at hv
      have hdev : isDevPort (extractPort l) = true := by
        cases hb : isDevPort (extractPort l) with
        | true => rfl
        | false => exact absurd (by rw [hb]; simp) h2
      exact ⟨hv.1, hv.2, isDevPort_true_cases (extractPort l) hdev⟩
    · rw [if_neg hv] at h; cases h

/-- Claim C9 witness: the theorem applied to a well-formed listener
line with pid 100 and port 3001. -/
theorem parseLine_bounds_witness :
    0 < (⟨100, "node".data, 3001⟩ : ProcessInfo).pid ∧
    (⟨100, "node".data, 3001⟩ : ProcessInfo).pid ≤ 2147483647 ∧
    ((⟨100, "node".data, 3001⟩ : ProcessInfo).port = 2000 ∨
      3000 ≤ (⟨100, "node".data, 3001⟩ : ProcessInfo).port) :=
  parseLine_bounds "node 100 user 21u IPv4 0x0 0t0 TCP *:3001 (LISTEN)".data
    ⟨100, "node".data, 3001⟩ (by decide)

/-- Claim C9 counterexample: a line advertising port 70000 survives
parsing and classification although 70000 exceeds 65535; the parser
enforces no upper bound of 65535. -/
theorem parseLine_port_range_cex :
    parseLine "node 100 user 21u IPv4 0x0 0t0 TCP *:70000 (LISTEN)".data =
      some ⟨100, "node".data, 70000⟩ ∧
    ¬ ((70000 : Int) ≤ 65535) :=
  ⟨by decide, by decide⟩
